import Mathlib

/-!
Shallow embedding of the SMS categorization service (`app.py`): the text
normalizer `preprocess_text`, the amount extractor `extract_amount_from_sms`,
the merchant extractor `extract_merchant_from_sms`, and the `/categorize`
endpoint `categorize_sms`.

Text is modelled as `List Char`.  The Python character classes used by the
source (`str.lower`, `str.title`, the regex classes `\w`, `\s`, `\d`) are
modelled on the ASCII fragment; non-ASCII characters such as the rupee sign
`₹` are neither word, digit nor space characters, matching Python.  Monetary
values are modelled as rationals, and a failing `float(...)` call is
modelled as `Option.none`.
-/

namespace SmsApi

/-- The 26 ASCII uppercase/lowercase pairs, modelling the effect of
Python `str.lower` / `str.upper` on letters. -/
def upperLowerTable : List (Char × Char) :=
  [('A','a'), ('B','b'), ('C','c'), ('D','d'), ('E','e'), ('F','f'),
   ('G','g'), ('H','h'), ('I','i'), ('J','j'), ('K','k'), ('L','l'),
   ('M','m'), ('N','n'), ('O','o'), ('P','p'), ('Q','q'), ('R','r'),
   ('S','s'), ('T','t'), ('U','u'), ('V','v'), ('W','w'), ('X','x'),
   ('Y','y'), ('Z','z')]

/-- Python `str.lower`, ASCII fragment: uppercase letters map to their
lowercase pair, every other character is unchanged. -/
def pyLower (c : Char) : Char :=
  match upperLowerTable.find? (fun p => p.1 == c) with
  | some p => p.2
  | none => c

/-- Python `str.upper`, ASCII fragment (used via `str.title`). -/
def pyUpper (c : Char) : Char :=
  match upperLowerTable.find? (fun p => p.2 == c) with
  | some p => p.1
  | none => c

/-- `c` is an ASCII uppercase letter. -/
def isUpperC (c : Char) : Bool :=
  (upperLowerTable.find? (fun p => p.1 == c)).isSome

/-- `c` is an ASCII lowercase letter. -/
def isLowerC (c : Char) : Bool :=
  (upperLowerTable.find? (fun p => p.2 == c)).isSome

/-- `c` is an ASCII digit (regex class `\d`). -/
def isDigitC (c : Char) : Bool :=
  "0123456789".data.any (fun d => d == c)

/-- `c` is a whitespace character (regex class `\s` / `str.split`). -/
def isSpaceC (c : Char) : Bool :=
  " \t\n\x0b\x0c\r".data.any (fun d => d == c)

/-- Python regex class `\w` (ASCII fragment): letters, digits and `_`. -/
def isWordC (c : Char) : Bool :=
  isUpperC c || isLowerC c || isDigitC c || c == '_'

/-- A character that survives normalization as a non-space: lowercase
letter, digit, or underscore. -/
def isWordLowerC (c : Char) : Bool :=
  isLowerC c || isDigitC c || c == '_'

/-! ## Normalizer: `preprocess_text` (app.py lines 27-32) -/

/-- One character of `re.sub(r'[^\w\s]', ' ', text)`: a character that is
neither a word character nor whitespace becomes a single space. -/
def replaceNonWord (c : Char) : Char :=
  if isWordC c || isSpaceC c then c else ' '

/-- Fuel-indexed worker for Python `str.split()`: splits on whitespace
runs, dropping empty tokens.  Each step consumes at least one character,
so fuel equal to the input length suffices. -/
def splitWsF : Nat → List Char → List (List Char)
  | 0, _ => []
  | fuel + 1, s =>
    let r := s.dropWhile isSpaceC
    if r.isEmpty then []
    else
      let w := r.takeWhile (fun d => !isSpaceC d)
      w :: splitWsF fuel (r.drop w.length)

/-- Python `text.split()` (no separator: split on whitespace runs). -/
def splitWs (s : List Char) : List (List Char) :=
  splitWsF s.length s

/-- Python `' '.join(words)`. -/
def joinW : List (List Char) → List Char
  | [] => []
  | [w] => w
  | w :: ws => w ++ ' ' :: joinW ws

/-- `preprocess_text` (app.py lines 27-32): lower-case, replace every
non-word non-space character with a space, then split on whitespace and
rejoin with single spaces. -/
def preprocess_text (s : List Char) : List Char :=
  joinW (splitWs ((s.map pyLower).map replaceNonWord))

/-! ## Merchant extractor: `extract_merchant_from_sms` (app.py lines 51-61) -/

/-- `dropLit lit s` returns the rest of `s` after the literal `lit`, when
`lit` is a prefix of `s`. -/
def dropLit : List Char → List Char → Option (List Char)
  | [], s => some s
  | _ :: _, [] => none
  | p :: ps, c :: cs => if p == c then dropLit ps cs else none

/-- Python substring containment `needle in hay` (contiguous). -/
def occursIn (needle : List Char) : List Char → Bool
  | [] => needle.isEmpty
  | c :: cs => (dropLit needle (c :: cs)).isSome || occursIn needle cs

/-- Worker for Python `str.title`: `prev` records whether the previous
character was a (ASCII) letter; a letter after a non-letter is
upper-cased, a letter after a letter is lower-cased. -/
def pyTitleGo : Bool → List Char → List Char
  | _, [] => []
  | prev, c :: cs =>
    let cased := isUpperC c || isLowerC c
    (if cased && !prev then pyUpper c
     else if cased && prev then pyLower c
     else c) :: pyTitleGo cased cs

/-- Python `str.title`, ASCII fragment. -/
def pyTitle (s : List Char) : List Char :=
  pyTitleGo false s

/-- The fixed merchant vocabulary, in source order (app.py lines 54-55). -/
def merchants : List (List Char) :=
  ["swiggy".data, "zomato".data, "amazon".data, "flipkart".data,
   "netflix".data, "uber".data, "ola".data, "pizza hut".data,
   "dominos".data, "mcdonald".data, "starbucks".data, "big bazaar".data,
   "dmart".data]

/-- The `for merchant in merchants` loop: first entry contained in the
lowered text, if any. -/
def merchantLoop : List (List Char) → List Char → Option (List Char)
  | [], _ => none
  | m :: ms, low => if occursIn m low then some m else merchantLoop ms low

/-- `extract_merchant_from_sms` (app.py lines 51-61). -/
def extract_merchant_from_sms (s : List Char) : List Char :=
  match merchantLoop merchants (s.map pyLower) with
  | some m => pyTitle m
  | none => "Unknown Merchant".data

/-- Written from the spec's words (§4.3), for comparison: the first
vocabulary entry (in enumeration order) contained in the lower-cased
text, title-cased; otherwise the sentinel. -/
def extractMerchantSpec (s : List Char) : List Char :=
  match merchants.find? (fun m => occursIn m (s.map pyLower)) with
  | some m => pyTitle m
  | none => "Unknown Merchant".data

/-! ## Amount extractor: `extract_amount_from_sms` (app.py lines 34-49)

The five regex patterns are embedded as deterministic matchers over the
lowered text.  For these particular patterns greedy matching without
backtracking coincides with Python's leftmost-match `re.search` semantics:
every quantified piece (`\d+`, `(?:,\d+)*`, `(?:\.\d{2})?`, `\s*`,
`\.?` inside the currency alternation) is followed by material that can
never begin with a character the quantified piece could give back. -/

/-- The currency-marker alternation `rs\.?|inr|₹` as literal prefixes in
Python's preference order (greedy `\.?` first). -/
def markerLits : List (List Char) :=
  ["rs.".data, "rs".data, "inr".data, "₹".data]

/-- First literal in the list that is a prefix of `s`; returns the rest. -/
def firstDrop : List (List Char) → List Char → Option (List Char)
  | [], _ => none
  | m :: ms, s =>
    match dropLit m s with
    | some r => some r
    | none => firstDrop ms s

/-- Match the currency-marker alternation at the head of `s`. -/
def matchMarkerAt (s : List Char) : Option (List Char) :=
  firstDrop markerLits s

/-- Fuel-indexed matcher for `(?:,\d+)*` at the head of the input:
returns the consumed characters and the rest.  Each iteration consumes a
comma and at least one digit, so fuel equal to the input length suffices. -/
def mcgF : Nat → List Char → List Char × List Char
  | 0, s => ([], s)
  | _ + 1, [] => ([], [])
  | fuel + 1, c :: cs =>
    if c == ',' then
      let ds := cs.takeWhile isDigitC
      if ds.isEmpty then ([], c :: cs)
      else
        let t := mcgF fuel (cs.dropWhile isDigitC)
        (',' :: (ds ++ t.1), t.2)
    else ([], c :: cs)

/-- `(?:,\d+)*` at the head of `s`. -/
def matchCommaGroups (s : List Char) : List Char × List Char :=
  mcgF s.length s

/-- `(?:\.\d{2})?` at the head of the input: a dot followed by exactly
two digits, or nothing. -/
def matchDecimal : List Char → List Char × List Char
  | c :: a :: b :: rest =>
    if c == '.' && isDigitC a && isDigitC b then ([c, a, b], rest)
    else ([], c :: a :: b :: rest)
  | s => ([], s)

/-- The capture group `(\d+(?:,\d+)*(?:\.\d{2})?)` at the head of `s`:
returns the captured characters and the rest. -/
def matchNumberAt (s : List Char) : Option (List Char × List Char) :=
  if (s.takeWhile isDigitC).isEmpty then none
  else
    some (s.takeWhile isDigitC ++
        (matchCommaGroups (s.dropWhile isDigitC)).1 ++
        (matchDecimal (matchCommaGroups (s.dropWhile isDigitC)).2).1,
      (matchDecimal (matchCommaGroups (s.dropWhile isDigitC)).2).2)

/-- Pattern 1, `(?:rs\.?|inr|₹)\s*(NUM)`, anchored at the head of `s`;
returns the capture. -/
def p1At (s : List Char) : Option (List Char) :=
  match matchMarkerAt s with
  | none => none
  | some r1 =>
    match matchNumberAt (r1.dropWhile isSpaceC) with
    | some pr => some pr.1
    | none => none

/-- Pattern 2, `(NUM)\s*(?:rs\.?|inr|₹)`, anchored at the head of `s`. -/
def p2At (s : List Char) : Option (List Char) :=
  match matchNumberAt s with
  | none => none
  | some pr =>
    if (matchMarkerAt (pr.2.dropWhile isSpaceC)).isSome then some pr.1
    else none

/-- The optional currency marker `(?:rs\.?|inr|₹)?`: consume it when
present, otherwise stay. -/
def optMarker (s : List Char) : List Char :=
  match matchMarkerAt s with
  | some r => r
  | none => s

/-- Patterns 3-5, `KW\s*(?:rs\.?|inr|₹)?\s*(NUM)` for a keyword literal
`kw`, anchored at the head of `s`. -/
def kwAt (kw : List Char) (s : List Char) : Option (List Char) :=
  match dropLit kw s with
  | none => none
  | some r1 =>
    match matchNumberAt ((optMarker (r1.dropWhile isSpaceC)).dropWhile isSpaceC) with
    | some pr => some pr.1
    | none => none

/-- `re.search`: try the anchored matcher at every position, left to
right, returning the first capture. -/
def searchP (p : List Char → Option (List Char)) : List Char → Option (List Char)
  | [] => p []
  | c :: cs =>
    match p (c :: cs) with
    | some cap => some cap
    | none => searchP p cs

/-- The five amount patterns in source order (app.py lines 36-42). -/
def amountPatterns : List (List Char → Option (List Char)) :=
  [p1At, p2At, kwAt ("amount".data), kwAt ("debited".data), kwAt ("spent".data)]

/-- The `for pattern in patterns` loop: first pattern (in order) whose
search over `t` succeeds; early return of its capture. -/
def firstCapture : List (List Char → Option (List Char)) → List Char → Option (List Char)
  | [], _ => none
  | p :: ps, t =>
    match searchP p t with
    | some cap => some cap
    | none => firstCapture ps t

/-- Numeric value of a digit string, as Python `float` would parse the
integer part. -/
def digitsToNat (ds : List Char) : Nat :=
  ds.foldl (fun n c => n * 10 + (c.toNat - 48)) 0

/-- Python `float(...)` on the fragment reachable from the captures:
digits, optionally followed by a dot and more digits.  `none` models a
`ValueError` (the string is not a float literal of this shape). -/
def pyFloat? (s : List Char) : Option ℚ :=
  if (s.takeWhile isDigitC).isEmpty then none
  else
    match s.dropWhile isDigitC with
    | [] => some (mkRat (digitsToNat (s.takeWhile isDigitC)) 1)
    | c :: fr =>
      if c == '.' && !fr.isEmpty && fr.all isDigitC then
        some (mkRat
          (Int.ofNat (digitsToNat (s.takeWhile isDigitC) * 10 ^ fr.length +
            digitsToNat fr))
          (10 ^ fr.length))
      else none

/-- `extract_amount_from_sms`, exception-aware: `none` models the
(unreachable) case where `float` raises on the captured group after the
comma strip `match.group(1).replace(',', '')`. -/
def extract_amount? (s : List Char) : Option ℚ :=
  match firstCapture amountPatterns (s.map pyLower) with
  | some cap => pyFloat? (cap.filter (fun c => !(c == ',')))
  | none => some 0

/-- `extract_amount_from_sms` (app.py lines 34-49). -/
def extract_amount_from_sms (s : List Char) : ℚ :=
  (extract_amount? s).getD 0

/-! ## The `/categorize` endpoint: `categorize_sms` (app.py lines 74-134)

The classifier and vectorizer are the opaque injected components: the
vectorizer is a function from normalized text to an abstract feature
type `V`, the model exposes `predict` and `predict_proba` over `V`.
`model = None` / `vectorizer = None` (the failed `joblib.load`) are the
`none` cases of the two `Option` arguments.  The request body is
modelled as `Option (List Char)`: `none` covers a missing/falsy JSON
body or a body without the `sms_text` key.  `datetime.now()` is an
explicit `now` argument feeding only the `processed_at` field. -/

/-- The loaded model: `predict` and `predict_proba` over the abstract
vectorized type `V`. -/
structure PModel (V : Type) where
  predict : V → List Char
  predict_proba : V → List ℚ

/-- Python `max` over a list; `none` models the `ValueError` on an
empty sequence. -/
def pyMax? : List ℚ → Option ℚ
  | [] => none
  | x :: xs => some (xs.foldl max x)

/-- Python `round(x, 2)` (banker's rounding to two decimal places),
computed on the exact rational `q`: with `r = 100*q`, `n = ⌊r⌋` and
`rem/den` the fractional part of `r`, round `r` to the nearest integer
`k` (ties to even) and return `k/100`. -/
def pyRound2 (q : ℚ) : ℚ :=
  let num := q.num * 100
  let den : Int := Int.ofNat q.den
  let n := Int.fdiv num den
  let rem := num - n * den
  let k : Int :=
    if 2 * rem < den then n
    else if den < 2 * rem then n + 1
    else if n % 2 = 0 then n else n + 1
  mkRat k 100

/-- The success payload assembled at app.py lines 116-124. -/
structure SmsResult where
  success : Bool
  category : List Char
  confidence : ℚ
  amount : ℚ
  merchant : List Char
  original_text : List Char
  processed_at : List Char
deriving DecidableEq

/-- The possible HTTP responses of `/categorize`. -/
inductive CatResponse
  /-- 200 with the assembled result. -/
  | ok (r : SmsResult)
  /-- 500 `'Model not loaded properly'` (app.py lines 79-83). -/
  | modelNotLoaded
  /-- 400 `'Please provide sms_text in JSON'` (app.py lines 88-93). -/
  | missingSmsText
  /-- 500 from the generic `except` handler (app.py lines 129-134). -/
  | serverError
deriving DecidableEq

/-- `categorize_sms` (app.py lines 74-134): check model availability,
then input presence, then classify the preprocessed text and assemble
the result with the extracted amount and merchant. -/
def categorize_sms {V : Type} (model? : Option (PModel V))
    (vectorizer? : Option (List Char → V)) (body? : Option (List Char))
    (now : List Char) : CatResponse :=
  match model?, vectorizer? with
  | some model, some vectorizer =>
    match body? with
    | none => .missingSmsText
    | some sms_text =>
      let processed := preprocess_text sms_text
      let vec := vectorizer processed
      let prediction := model.predict vec
      match pyMax? (model.predict_proba vec), extract_amount? sms_text with
      | some confidence, some amount =>
        .ok { success := true
              category := prediction
              confidence := pyRound2 confidence
              amount := amount
              merchant := extract_merchant_from_sms sms_text
              original_text := sms_text
              processed_at := now }
      | _, _ => .serverError
  | _, _ => .modelNotLoaded

/-! ## Output-shape predicates for the normalizer -/

/-- No two consecutive spaces. -/
def noDoubleSpace : List Char → Bool
  | [] => true
  | [_] => true
  | a :: b :: t => !(a == ' ' && b == ' ') && noDoubleSpace (b :: t)

/-- Neither the first nor the last character is a space. -/
def noEdgeSpace (s : List Char) : Bool :=
  !(s.head? == some ' ') && !(s.getLast? == some ' ')

/-- The shape asserted of normalizer output: every character satisfies
`p` or is a space, with no double spaces and no leading/trailing space. -/
def normalizedShape (p : Char → Bool) (s : List Char) : Bool :=
  s.all (fun c => p c || c == ' ') && noDoubleSpace s && noEdgeSpace s

/-! ## Generic list helper lemmas -/

theorem all_takeWhile (p : Char → Bool) :
    ∀ l : List Char, ∀ c ∈ l.takeWhile p, p c = true := by
  intro l
  induction l with
  | nil => intro c hc; simp at hc
  | cons a t ih =>
    intro c hc
    by_cases ha : p a
    · rw [List.takeWhile_cons_of_pos ha] at hc
      rcases List.mem_cons.mp hc with h | h
      · exact h ▸ ha
      · exact ih c h
    · rw [List.takeWhile_cons_of_neg ha] at hc
      simp at hc

theorem takeWhile_eq_self (p : Char → Bool) :
    ∀ l : List Char, (∀ c ∈ l, p c = true) → l.takeWhile p = l := by
  intro l
  induction l with
  | nil => intro _; rfl
  | cons a t ih =>
    intro h
    rw [List.takeWhile_cons_of_pos (h a (List.mem_cons_self a t))]
    rw [ih (fun c hc => h c (List.mem_cons_of_mem a hc))]

theorem dropWhile_eq_nil (p : Char → Bool) :
    ∀ l : List Char, (∀ c ∈ l, p c = true) → l.dropWhile p = [] := by
  intro l
  induction l with
  | nil => intro _; rfl
  | cons a t ih =>
    intro h
    rw [List.dropWhile_cons_of_pos (h a (List.mem_cons_self a t))]
    exact ih (fun c hc => h c (List.mem_cons_of_mem a hc))

theorem takeWhile_append_stop (p : Char → Bool) (c : Char) (t : List Char)
    (hc : p c = false) :
    ∀ l : List Char, (∀ d ∈ l, p d = true) →
      (l ++ c :: t).takeWhile p = l := by
  intro l
  induction l with
  | nil =>
    intro _
    rw [List.nil_append, List.takeWhile_cons_of_neg (by simp [hc])]
  | cons a l' ih =>
    intro h
    rw [List.cons_append,
      List.takeWhile_cons_of_pos (h a (List.mem_cons_self a l')),
      ih (fun d hd => h d (List.mem_cons_of_mem a hd))]

theorem dropWhile_append_stop (p : Char → Bool) (c : Char) (t : List Char)
    (hc : p c = false) :
    ∀ l : List Char, (∀ d ∈ l, p d = true) →
      (l ++ c :: t).dropWhile p = c :: t := by
  intro l
  induction l with
  | nil =>
    intro _
    simp [List.dropWhile_cons, hc]
  | cons a l' ih =>
    intro h
    rw [List.cons_append,
      List.dropWhile_cons_of_pos (h a (List.mem_cons_self a l')),
      ih (fun d hd => h d (List.mem_cons_of_mem a hd))]

theorem filter_eq_self_of (q : Char → Bool) :
    ∀ l : List Char, (∀ c ∈ l, q c = true) → l.filter q = l := by
  intro l
  induction l with
  | nil => intro _; rfl
  | cons a t ih =>
    intro h
    rw [List.filter_cons_of_pos (h a (List.mem_cons_self a t))]
    rw [ih (fun c hc => h c (List.mem_cons_of_mem a hc))]

theorem map_eq_self_of (f : Char → Char) :
    ∀ l : List Char, (∀ c ∈ l, f c = c) → l.map f = l := by
  intro l
  induction l with
  | nil => intro _; rfl
  | cons a t ih =>
    intro h
    rw [List.map_cons, h a (List.mem_cons_self a t),
      ih (fun c hc => h c (List.mem_cons_of_mem a hc))]

theorem getLast?_append_cons (c : Char) (t : List Char) :
    ∀ l : List Char, (l ++ c :: t).getLast? = (c :: t).getLast? := by
  intro l
  induction l with
  | nil => rfl
  | cons a l' ih =>
    rw [List.cons_append]
    cases hx : l' ++ c :: t with
    | nil => exact absurd hx (by simp)
    | cons y ys =>
      rw [List.getLast?_cons_cons, ← hx]
      exact ih

theorem any_beq_iff_mem (c : Char) :
    ∀ l : List Char, l.any (fun d => d == c) = true ↔ c ∈ l := by
  intro l
  induction l with
  | nil => simp
  | cons a t ih =>
    simp only [List.any_cons, Bool.or_eq_true, beq_iff_eq, List.mem_cons, ih]
    exact or_congr (by exact ⟨fun h => h.symm, fun h => h.symm⟩) Iff.rfl

/-! ## Character-class facts -/

theorem isDigitC_mem {c : Char} (h : isDigitC c = true) :
    c ∈ "0123456789".data :=
  (any_beq_iff_mem c _).mp h

theorem isSpaceC_mem {c : Char} (h : isSpaceC c = true) :
    c ∈ " \t\n\x0b\x0c\r".data :=
  (any_beq_iff_mem c _).mp h

theorem isDigitC_ne_comma {c : Char} (h : isDigitC c = true) :
    (c == ',') = false := by
  have := isDigitC_mem h
  revert this
  exact (by decide : ∀ d ∈ "0123456789".data, (d == ',') = false) c

theorem space_isSpaceC : isSpaceC ' ' = true := by decide

theorem ne_space_of_not_isSpaceC {c : Char} (h : isSpaceC c = false) :
    (c == ' ') = false := by
  cases hb : c == ' ' with
  | false => rfl
  | true => exact absurd (beq_iff_eq.mp hb ▸ h) (by decide)

theorem pyLower_eq_self {c : Char} (h : isUpperC c = false) :
    pyLower c = c := by
  unfold pyLower
  unfold isUpperC at h
  cases hf : upperLowerTable.find? (fun p => p.1 == c) with
  | none => rfl
  | some p => rw [hf] at h; simp at h

theorem isUpperC_pyLower (c : Char) : isUpperC (pyLower c) = false := by
  unfold pyLower
  cases hf : upperLowerTable.find? (fun p => p.1 == c) with
  | none =>
    have : isUpperC c = false := by unfold isUpperC; rw [hf]; rfl
    exact this
  | some p =>
    exact (by decide : ∀ q ∈ upperLowerTable, isUpperC q.2 = false) p
      (List.mem_of_find?_eq_some hf)

theorem isUpperC_eq_false_of_isWordLowerC {c : Char}
    (h : isWordLowerC c = true) : isUpperC c = false := by
  simp only [isWordLowerC, Bool.or_eq_true, beq_iff_eq] at h
  rcases h with (hl | hd) | hund
  · unfold isLowerC at hl
    cases hf : upperLowerTable.find? (fun p => p.2 == c) with
    | none => rw [hf] at hl; simp at hl
    | some p =>
      have hm := List.mem_of_find?_eq_some hf
      have hpc : (p.2 == c) = true := by
        have := List.find?_some hf
        simpa using this
      rw [← beq_iff_eq.mp hpc]
      exact (by decide : ∀ q ∈ upperLowerTable, isUpperC q.2 = false) p hm
  · exact (by decide : ∀ d ∈ "0123456789".data, isUpperC d = false) c
      (isDigitC_mem hd)
  · rw [hund]; decide

theorem pyLower_eq_self_of_isWordLowerC {c : Char}
    (h : isWordLowerC c = true) : pyLower c = c :=
  pyLower_eq_self (isUpperC_eq_false_of_isWordLowerC h)

theorem isWordLowerC_of_isWordC {c : Char} (hw : isWordC c = true)
    (hu : isUpperC c = false) : isWordLowerC c = true := by
  unfold isWordC at hw
  rw [hu] at hw
  simpa [isWordLowerC] using hw

theorem isWordC_of_isWordLowerC {c : Char} (h : isWordLowerC c = true) :
    isWordC c = true := by
  simp only [isWordLowerC, Bool.or_eq_true] at h
  simp only [isWordC, Bool.or_eq_true]
  tauto

theorem replaceNonWord_eq_self_of_isWordLowerC {c : Char}
    (h : isWordLowerC c = true) : replaceNonWord c = c := by
  unfold replaceNonWord
  rw [isWordC_of_isWordLowerC h]
  rfl

theorem pyLower_space : pyLower ' ' = ' ' := by decide

theorem replaceNonWord_space : replaceNonWord ' ' = ' ' := by decide

theorem ne_space {c : Char} (h : isSpaceC c = false) : c ≠ ' ' := by
  intro hEq
  rw [hEq] at h
  exact absurd h (by decide)

/-! ## `splitWs` and `joinW` lemmas -/

theorem splitWsF_nil : ∀ f, splitWsF f [] = [] := by
  intro f
  cases f with
  | zero => rfl
  | succ f' => rfl

theorem dropWhile_head_false (p : Char → Bool) :
    ∀ (s : List Char) {c : Char} {cs : List Char},
      s.dropWhile p = c :: cs → p c = false := by
  intro s
  induction s with
  | nil => intro c cs h; simp at h
  | cons a t ih =>
    intro c cs h
    by_cases ha : p a
    · rw [List.dropWhile_cons_of_pos ha] at h
      exact ih h
    · rw [List.dropWhile_cons_of_neg ha] at h
      cases h
      exact Bool.of_not_eq_true ha

theorem splitWsF_mem : ∀ (fuel : Nat) (s : List Char), ∀ w ∈ splitWsF fuel s,
    w ≠ [] ∧ ∀ c ∈ w, isSpaceC c = false ∧ c ∈ s := by
  intro fuel
  induction fuel with
  | zero => intro s w hw; simp [splitWsF] at hw
  | succ f ih =>
    intro s w hw
    simp only [splitWsF] at hw
    cases hd : s.dropWhile isSpaceC with
    | nil => rw [hd] at hw; simp at hw
    | cons c cs =>
      rw [hd] at hw
      rw [if_neg (by simp)] at hw
      have hsub : ∀ x ∈ c :: cs, x ∈ s :=
        fun x hx => (List.dropWhile_sublist isSpaceC).subset (hd ▸ hx)
      rcases List.mem_cons.mp hw with hw | hw
      · subst hw
        have hc : isSpaceC c = false := dropWhile_head_false isSpaceC s hd
        constructor
        · rw [List.takeWhile_cons_of_pos (by simp [hc])]
          simp
        · intro x hx
          have hx' : x ∈ c :: cs := (List.takeWhile_sublist _).subset hx
          refine ⟨?_, hsub x hx'⟩
          have := all_takeWhile (fun d => !isSpaceC d) (c :: cs) x hx
          simpa using this
      · have := ih ((c :: cs).drop ((c :: cs).takeWhile (fun d => !isSpaceC d)).length) w hw
        refine ⟨this.1, fun x hx => ⟨(this.2 x hx).1, ?_⟩⟩
        have hx' : x ∈ c :: cs := (List.drop_sublist _ _).subset (this.2 x hx).2
        exact hsub x hx'

theorem splitWsF_congr {f : Nat} {s t : List Char}
    (h : s.dropWhile isSpaceC = t.dropWhile isSpaceC) :
    splitWsF (f + 1) s = splitWsF (f + 1) t := by
  simp only [splitWsF]
  rw [h]

theorem joinW_cons_head (c : Char) (cs : List Char) :
    ∀ t, ∃ tl, joinW ((c :: cs) :: t) = c :: tl := by
  intro t
  cases t with
  | nil => exact ⟨cs, rfl⟩
  | cons w' t' => exact ⟨cs ++ ' ' :: joinW (w' :: t'), rfl⟩

theorem joinW_ne_nil : ∀ ws, (∀ w ∈ ws, w ≠ []) → ws ≠ [] → joinW ws ≠ [] := by
  intro ws hws hne
  cases ws with
  | nil => exact absurd rfl hne
  | cons w t =>
    have hw : w ≠ [] := hws w (List.mem_cons_self w t)
    cases hwc : w with
    | nil => exact absurd hwc hw
    | cons c cs =>
      obtain ⟨tl, htl⟩ := joinW_cons_head c cs t
      rw [htl]
      simp

theorem length_le_joinW : ∀ ws : List (List Char), (∀ w ∈ ws, w ≠ []) →
    ws.length ≤ (joinW ws).length := by
  intro ws
  induction ws with
  | nil => intro _; simp [joinW]
  | cons w t ih =>
    intro h
    have hw : w ≠ [] := h w (List.mem_cons_self w t)
    have hw1 : 1 ≤ w.length := List.length_pos.mpr hw
    cases t with
    | nil => simpa [joinW] using hw1
    | cons w' t' =>
      have := ih (fun x hx => h x (List.mem_cons_of_mem w hx))
      simp only [joinW, List.length_append, List.length_cons]
      simp only [List.length_cons] at this
      omega

theorem dropWhile_joinW : ∀ ws,
    (∀ w ∈ ws, w ≠ [] ∧ ∀ c ∈ w, isSpaceC c = false) →
    (joinW ws).dropWhile isSpaceC = joinW ws := by
  intro ws h
  cases ws with
  | nil => rfl
  | cons w t =>
    obtain ⟨hne, hchars⟩ := h w (List.mem_cons_self w t)
    cases hwc : w with
    | nil => exact absurd hwc hne
    | cons c cs =>
      obtain ⟨tl, htl⟩ := joinW_cons_head c cs t
      rw [htl]
      have hcw : c ∈ w := by rw [hwc]; exact List.mem_cons_self c cs
      exact List.dropWhile_cons_of_neg (by simp [hchars c hcw])

theorem nds_of_all_nonspace :
    ∀ l : List Char, (∀ c ∈ l, isSpaceC c = false) → noDoubleSpace l = true := by
  intro l
  induction l with
  | nil => intro _; rfl
  | cons a t ih =>
    intro h
    cases t with
    | nil => rfl
    | cons b t' =>
      have ha : (a == ' ') = false :=
        ne_space_of_not_isSpaceC (h a (List.mem_cons_self a (b :: t')))
      simp only [noDoubleSpace, ha, Bool.false_and, Bool.not_false, Bool.true_and]
      exact ih (fun c hc => h c (List.mem_cons_of_mem a hc))

theorem nds_append : ∀ (w r : List Char), (∀ c ∈ w, isSpaceC c = false) →
    noDoubleSpace r = true → noDoubleSpace (w ++ r) = true := by
  intro w
  induction w with
  | nil => intro r _ hr; simpa using hr
  | cons a w' ih =>
    intro r h hr
    have ha : (a == ' ') = false :=
      ne_space_of_not_isSpaceC (h a (List.mem_cons_self a w'))
    have hrest := ih r (fun c hc => h c (List.mem_cons_of_mem a hc)) hr
    rw [List.cons_append]
    cases hx : w' ++ r with
    | nil => rfl
    | cons y ys =>
      simp only [noDoubleSpace, ha, Bool.false_and, Bool.not_false, Bool.true_and]
      rw [← hx]
      exact hrest

theorem nds_joinW : ∀ ws,
    (∀ w ∈ ws, w ≠ [] ∧ ∀ c ∈ w, isSpaceC c = false) →
    noDoubleSpace (joinW ws) = true := by
  intro ws
  induction ws with
  | nil => intro _; rfl
  | cons w t ih =>
    intro h
    obtain ⟨hne, hchars⟩ := h w (List.mem_cons_self w t)
    have hrest := fun x hx => h x (List.mem_cons_of_mem w hx)
    cases t with
    | nil => exact nds_of_all_nonspace w hchars
    | cons w' t' =>
      show noDoubleSpace (w ++ ' ' :: joinW (w' :: t')) = true
      refine nds_append w (' ' :: joinW (w' :: t')) hchars ?_
      obtain ⟨hne', hchars'⟩ := hrest w' (List.mem_cons_self w' t')
      cases hwc : w' with
      | nil => exact absurd hwc hne'
      | cons c cs =>
        obtain ⟨tl, htl⟩ := joinW_cons_head c cs t'
        rw [htl]
        have hcw : c ∈ w' := by rw [hwc]; exact List.mem_cons_self c cs
        have hc : (c == ' ') = false :=
          ne_space_of_not_isSpaceC (hchars' c hcw)
        simp only [noDoubleSpace, hc, Bool.and_false, Bool.not_false, Bool.true_and]
        rw [← htl, ← hwc]
        exact ih hrest

theorem getLast?_nonspace :
    ∀ w : List Char, (∀ c ∈ w, isSpaceC c = false) → w.getLast? ≠ some ' ' := by
  intro w
  induction w with
  | nil => intro _; simp
  | cons a t ih =>
    intro h
    cases t with
    | nil =>
      simp only [List.getLast?_singleton]
      intro hEq
      exact ne_space (h a (List.mem_cons_self a [])) (Option.some.inj hEq)
    | cons b t' =>
      rw [List.getLast?_cons_cons]
      exact ih (fun c hc => h c (List.mem_cons_of_mem a hc))

theorem getLast?_joinW_nonspace : ∀ ws,
    (∀ w ∈ ws, w ≠ [] ∧ ∀ c ∈ w, isSpaceC c = false) →
    (joinW ws).getLast? ≠ some ' ' := by
  intro ws
  induction ws with
  | nil => intro _; simp [joinW]
  | cons w t ih =>
    intro h
    obtain ⟨hne, hchars⟩ := h w (List.mem_cons_self w t)
    have hrest := fun x hx => h x (List.mem_cons_of_mem w hx)
    cases t with
    | nil => exact getLast?_nonspace w hchars
    | cons w' t' =>
      show (w ++ ' ' :: joinW (w' :: t')).getLast? ≠ some ' '
      rw [getLast?_append_cons]
      have hjne : joinW (w' :: t') ≠ [] :=
        joinW_ne_nil (w' :: t') (fun x hx => (hrest x hx).1) (by simp)
      cases hj : joinW (w' :: t') with
      | nil => exact absurd hj hjne
      | cons y ys =>
        rw [List.getLast?_cons_cons, ← hj]
        exact ih hrest

theorem mem_joinW : ∀ ws (c : Char), c ∈ joinW ws →
    (∃ w ∈ ws, c ∈ w) ∨ c = ' ' := by
  intro ws
  induction ws with
  | nil => intro c hc; simp [joinW] at hc
  | cons w t ih =>
    intro c hc
    cases t with
    | nil => exact Or.inl ⟨w, List.mem_cons_self w [], hc⟩
    | cons w' t' =>
      rcases List.mem_append.mp hc with hc | hc
      · exact Or.inl ⟨w, List.mem_cons_self w _, hc⟩
      · rcases List.mem_cons.mp hc with hc | hc
        · exact Or.inr hc
        · rcases ih c hc with ⟨x, hx, hcx⟩ | hc
          · exact Or.inl ⟨x, List.mem_cons_of_mem w hx, hcx⟩
          · exact Or.inr hc

theorem normalizedShape_joinW (p : Char → Bool) : ∀ ws,
    (∀ w ∈ ws, w ≠ [] ∧ ∀ c ∈ w, isSpaceC c = false ∧ p c = true) →
    normalizedShape p (joinW ws) = true := by
  intro ws h
  have hgood : ∀ w ∈ ws, w ≠ [] ∧ ∀ c ∈ w, isSpaceC c = false :=
    fun w hw => ⟨(h w hw).1, fun c hc => ((h w hw).2 c hc).1⟩
  unfold normalizedShape
  rw [Bool.and_eq_true, Bool.and_eq_true]
  refine ⟨⟨?_, nds_joinW ws hgood⟩, ?_⟩
  · rw [List.all_eq_true]
    intro c hc
    rcases mem_joinW ws c hc with ⟨w, hw, hcw⟩ | hsp
    · rw [((h w hw).2 c hcw).2]
      rfl
    · subst hsp
      simp
  · unfold noEdgeSpace
    rw [Bool.and_eq_true]
    constructor
    · cases hws : ws with
      | nil => rfl
      | cons w t =>
        have hwmem : w ∈ ws := by rw [hws]; exact List.mem_cons_self w t
        obtain ⟨hne, _⟩ := hgood w hwmem
        cases hwc : w with
        | nil => exact absurd hwc hne
        | cons c cs =>
          obtain ⟨tl, htl⟩ := joinW_cons_head c cs t
          rw [htl]
          have hcw : c ∈ w := by rw [hwc]; exact List.mem_cons_self c cs
          have hc : isSpaceC c = false := ((h w hwmem).2 c hcw).1
          simp [ne_space hc]
    · have := getLast?_joinW_nonspace ws hgood
      simp only [Bool.not_eq_true']
      rw [beq_eq_false_iff_ne]
      exact this

theorem splitWs_joinW_fuel : ∀ (fuel : Nat) (ws : List (List Char)),
    (∀ w ∈ ws, w ≠ [] ∧ ∀ c ∈ w, isSpaceC c = false) →
    ws.length ≤ fuel → splitWsF fuel (joinW ws) = ws := by
  intro fuel
  induction fuel with
  | zero =>
    intro ws h hlen
    have : ws = [] := List.eq_nil_of_length_eq_zero (Nat.le_zero.mp hlen)
    subst this
    rfl
  | succ f ih =>
    intro ws h hlen
    cases ws with
    | nil => exact splitWsF_nil (f + 1)
    | cons w t =>
      obtain ⟨hne, hchars⟩ := h w (List.mem_cons_self w t)
      have hrest := fun x hx => h x (List.mem_cons_of_mem w hx)
      cases hwc : w with
      | nil => exact absurd hwc hne
      | cons c cs =>
        have hchars' : ∀ d ∈ c :: cs, isSpaceC d = false := by
          intro d hd
          exact hchars d (by rw [hwc]; exact hd)
        have hall' : ∀ d ∈ c :: cs, (!isSpaceC d) = true := by
          intro d hd
          simp [hchars' d hd]
        cases t with
        | nil =>
          show splitWsF (f + 1) (joinW [c :: cs]) = [c :: cs]
          simp only [splitWsF, joinW]
          rw [List.dropWhile_cons_of_neg
            (by simp [hchars' c (List.mem_cons_self c cs)])]
          rw [if_neg (by simp)]
          rw [takeWhile_eq_self _ _ hall', List.drop_length, splitWsF_nil]
        | cons w' t' =>
          show splitWsF (f + 1) ((c :: cs) ++ ' ' :: joinW (w' :: t')) =
            (c :: cs) :: w' :: t'
          simp only [splitWsF, List.cons_append]
          rw [List.dropWhile_cons_of_neg
            (by simp [hchars' c (List.mem_cons_self c cs)])]
          rw [if_neg (by simp)]
          rw [← List.cons_append,
            takeWhile_append_stop _ ' ' _ (by decide) _ hall',
            List.drop_left]
          have hlen' : (w' :: t').length ≤ f := by
            simp only [List.length_cons] at hlen ⊢
            omega
          have hf : 1 ≤ f := le_trans (by simp) hlen'
          obtain ⟨f', rfl⟩ : ∃ f', f = f' + 1 :=
            ⟨f - 1, by omega⟩
          have hcongr : (' ' :: joinW (w' :: t')).dropWhile isSpaceC =
              (joinW (w' :: t')).dropWhile isSpaceC :=
            List.dropWhile_cons_of_pos (by decide)
          rw [splitWsF_congr hcongr, ih (w' :: t') hrest hlen']

/-- `splitWs (joinW ws) = ws` for nonempty words of non-space characters:
Python's `' '.join` / `str.split()` round-trip. -/
theorem splitWs_joinW (ws : List (List Char))
    (h : ∀ w ∈ ws, w ≠ [] ∧ ∀ c ∈ w, isSpaceC c = false) :
    splitWs (joinW ws) = ws :=
  splitWs_joinW_fuel (joinW ws).length ws h
    (length_le_joinW ws (fun w hw => (h w hw).1))

/-! ## Normalizer output shape and idempotence -/

theorem mapped_char_class {s : List Char} {c : Char}
    (hc : c ∈ (s.map pyLower).map replaceNonWord) (hs : isSpaceC c = false) :
    isWordLowerC c = true := by
  rcases List.mem_map.mp hc with ⟨d, hd, hdc⟩
  rcases List.mem_map.mp hd with ⟨e, _, hed⟩
  unfold replaceNonWord at hdc
  by_cases hif : (isWordC d || isSpaceC d) = true
  · rw [if_pos hif] at hdc
    subst hdc
    rcases (Bool.or_eq_true _ _).mp hif with hw | hsp
    · exact isWordLowerC_of_isWordC hw (hed ▸ isUpperC_pyLower e)
    · rw [hsp] at hs
      cases hs
  · rw [if_neg hif] at hdc
    rw [← hdc] at hs
    rw [space_isSpaceC] at hs
    cases hs

theorem preprocess_words_good (s : List Char) :
    ∀ w ∈ splitWs ((s.map pyLower).map replaceNonWord),
      w ≠ [] ∧ ∀ c ∈ w, isSpaceC c = false ∧ isWordLowerC c = true := by
  intro w hw
  have h := splitWsF_mem _ _ w hw
  exact ⟨h.1, fun c hc =>
    ⟨(h.2 c hc).1, mapped_char_class (h.2 c hc).2 (h.2 c hc).1⟩⟩

theorem preprocess_shape (s : List Char) :
    normalizedShape isWordLowerC (preprocess_text s) = true := by
  unfold preprocess_text
  exact normalizedShape_joinW _ _ (preprocess_words_good s)

theorem preprocess_idem_aux (s : List Char) :
    preprocess_text (preprocess_text s) = preprocess_text s := by
  have hwords := preprocess_words_good s
  have hmemclass : ∀ c ∈ preprocess_text s, isWordLowerC c = true ∨ c = ' ' := by
    intro c hc
    unfold preprocess_text at hc
    rcases mem_joinW _ c hc with ⟨w, hw, hcw⟩ | hsp
    · exact Or.inl ((hwords w hw).2 c hcw).2
    · exact Or.inr hsp
  have hlow : (preprocess_text s).map pyLower = preprocess_text s :=
    map_eq_self_of _ _ (fun c hc => by
      rcases hmemclass c hc with h | h
      · exact pyLower_eq_self_of_isWordLowerC h
      · rw [h]; exact pyLower_space)
  have hrep : (preprocess_text s).map replaceNonWord = preprocess_text s :=
    map_eq_self_of _ _ (fun c hc => by
      rcases hmemclass c hc with h | h
      · exact replaceNonWord_eq_self_of_isWordLowerC h
      · rw [h]; exact replaceNonWord_space)
  show joinW (splitWs (((preprocess_text s).map pyLower).map replaceNonWord)) =
    preprocess_text s
  rw [hlow, hrep]
  show joinW (splitWs (joinW (splitWs ((s.map pyLower).map replaceNonWord)))) =
    preprocess_text s
  rw [splitWs_joinW _ (fun w hw =>
    ⟨(hwords w hw).1, fun c hc => ((hwords w hw).2 c hc).1⟩)]
  rfl

/-! ## Amount extractor: the captured group always parses -/

/-- The captured group, after the comma strip, is accepted by `float`. -/
def CapOk (cap : List Char) : Prop :=
  (pyFloat? (cap.filter (fun c => !(c == ',')))).isSome = true

theorem mcgF_mem : ∀ (fuel : Nat) (s : List Char), ∀ c ∈ (mcgF fuel s).1,
    isDigitC c = true ∨ c = ',' := by
  intro fuel
  induction fuel with
  | zero => intro s c hc; simp [mcgF] at hc
  | succ f ih =>
    intro s c hc
    cases s with
    | nil => simp [mcgF] at hc
    | cons a t =>
      simp only [mcgF] at hc
      cases ha : a == ',' with
      | false => rw [ha] at hc; simp at hc
      | true =>
        rw [ha] at hc
        cases he : (t.takeWhile isDigitC).isEmpty with
        | true => rw [he] at hc; simp at hc
        | false =>
          rw [he] at hc
          simp only [Bool.false_eq_true, if_false, if_true] at hc
          rcases List.mem_cons.mp hc with hc | hc
          · exact Or.inr hc
          · rcases List.mem_append.mp hc with hc | hc
            · exact Or.inl (all_takeWhile isDigitC t c hc)
            · exact ih (t.dropWhile isDigitC) c hc

theorem matchDecimal_shape (s : List Char) :
    (matchDecimal s).1 = [] ∨
      ∃ a b, (matchDecimal s).1 = ['.', a, b] ∧
        isDigitC a = true ∧ isDigitC b = true := by
  rcases s with _ | ⟨c, _ | ⟨a, _ | ⟨b, rest⟩⟩⟩
  · exact Or.inl rfl
  · exact Or.inl rfl
  · exact Or.inl rfl
  · have hmd : matchDecimal (c :: a :: b :: rest) =
        if c == '.' && isDigitC a && isDigitC b then ([c, a, b], rest)
        else ([], c :: a :: b :: rest) := rfl
    rw [hmd]
    cases hcond : c == '.' && isDigitC a && isDigitC b with
    | false => rw [if_neg (by simp)]; exact Or.inl rfl
    | true =>
      rw [if_pos rfl]
      rcases Bool.and_eq_true _ _ |>.mp hcond with ⟨h1, hb⟩
      rcases Bool.and_eq_true _ _ |>.mp h1 with ⟨hdot, ha⟩
      exact Or.inr ⟨a, b, by rw [beq_iff_eq.mp hdot], ha, hb⟩

theorem pyFloat_isSome (ds' d : List Char) (hne : ds' ≠ [])
    (hds : ∀ c ∈ ds', isDigitC c = true)
    (hd : d = [] ∨ ∃ a b, d = ['.', a, b] ∧ isDigitC a = true ∧ isDigitC b = true) :
    (pyFloat? (ds' ++ d)).isSome = true := by
  have hip : (ds' ++ d).takeWhile isDigitC = ds' := by
    rcases hd with rfl | ⟨a, b, rfl, _, _⟩
    · rw [List.append_nil]; exact takeWhile_eq_self _ _ hds
    · exact takeWhile_append_stop _ '.' _ (by decide) _ hds
  have hipne : ds'.isEmpty = false := by
    cases ds' with
    | nil => exact absurd rfl hne
    | cons x xs => rfl
  unfold pyFloat?
  rw [hip, hipne]
  simp only [Bool.false_eq_true, if_false]
  rcases hd with rfl | ⟨a, b, rfl, ha, hb⟩
  · rw [List.append_nil, dropWhile_eq_nil _ _ hds]
    rfl
  · rw [dropWhile_append_stop _ '.' _ (by decide) _ hds]
    simp [ha, hb]

theorem matchNumber_capOk {s : List Char} {pr : List Char × List Char}
    (h : matchNumberAt s = some pr) : CapOk pr.1 := by
  unfold matchNumberAt at h
  cases he : (s.takeWhile isDigitC).isEmpty with
  | true => rw [he] at h; simp at h
  | false =>
    rw [he] at h
    simp only [Bool.false_eq_true, if_false, Option.some.injEq] at h
    have hcap : pr.1 = s.takeWhile isDigitC ++
        (matchCommaGroups (s.dropWhile isDigitC)).1 ++
        (matchDecimal (matchCommaGroups (s.dropWhile isDigitC)).2).1 := by
      rw [← h]
    set ds := s.takeWhile isDigitC with hds
    set g1 := (matchCommaGroups (s.dropWhile isDigitC)).1 with hg1
    set d1 := (matchDecimal (matchCommaGroups (s.dropWhile isDigitC)).2).1 with hd1
    have hdsd : ∀ c ∈ ds, isDigitC c = true := all_takeWhile isDigitC s
    have hdsne : ds ≠ [] := by
      intro hx
      rw [hx] at he
      cases he
    have hg1d : ∀ c ∈ g1, isDigitC c = true ∨ c = ',' :=
      mcgF_mem (s.dropWhile isDigitC).length (s.dropWhile isDigitC)
    have hd1s := matchDecimal_shape (matchCommaGroups (s.dropWhile isDigitC)).2
    rw [← hd1] at hd1s
    unfold CapOk
    rw [hcap]
    rw [List.filter_append, List.filter_append]
    have hfds : ds.filter (fun c => !(c == ',')) = ds :=
      filter_eq_self_of _ _ (fun c hc => by simp [isDigitC_ne_comma (hdsd c hc)])
    have hfd1 : d1.filter (fun c => !(c == ',')) = d1 := by
      rcases hd1s with h1 | ⟨a, b, h1, ha, hb⟩ <;> rw [h1]
      · rfl
      · exact filter_eq_self_of _ _ (fun c hc => by
          rcases List.mem_cons.mp hc with rfl | hc
          · decide
          · rcases List.mem_cons.mp hc with rfl | hc
            · simp [isDigitC_ne_comma ha]
            · rcases List.mem_cons.mp hc with rfl | hc
              · simp [isDigitC_ne_comma hb]
              · simp at hc
          )
    rw [hfds, hfd1]
    have hgd : ∀ c ∈ g1.filter (fun c => !(c == ',')), isDigitC c = true := by
      intro c hc
      have hm := List.mem_filter.mp hc
      rcases hg1d c hm.1 with hdig | hcomma
      · exact hdig
      · exfalso
        have := hm.2
        rw [hcomma] at this
        simp at this
    refine pyFloat_isSome (ds ++ g1.filter (fun c => !(c == ','))) d1 ?_ ?_ hd1s
    · intro hx
      exact hdsne (List.append_eq_nil.mp hx).1
    · intro c hc
      rcases List.mem_append.mp hc with hc | hc
      · exact hdsd c hc
      · exact hgd c hc

theorem p1At_capOk {s cap} (h : p1At s = some cap) : CapOk cap := by
  unfold p1At at h
  split at h
  next => cases h
  next r1 _ =>
    split at h
    next pr hn => cases h; exact matchNumber_capOk hn
    next => cases h

theorem p2At_capOk {s cap} (h : p2At s = some cap) : CapOk cap := by
  unfold p2At at h
  split at h
  next => cases h
  next pr hn =>
    split at h
    · cases h; exact matchNumber_capOk hn
    · cases h

theorem kwAt_capOk {kw s cap} (h : kwAt kw s = some cap) : CapOk cap := by
  unfold kwAt at h
  split at h
  next => cases h
  next r1 _ =>
    split at h
    next pr hn => cases h; exact matchNumber_capOk hn
    next => cases h

theorem searchP_some {p : List Char → Option (List Char)} :
    ∀ {t cap}, searchP p t = some cap → ∃ u, p u = some cap := by
  intro t
  induction t with
  | nil => intro cap h; exact ⟨[], h⟩
  | cons c cs ih =>
    intro cap h
    unfold searchP at h
    split at h
    next cap' hp => cases h; exact ⟨c :: cs, hp⟩
    next => exact ih h

theorem firstCapture_some {ps : List (List Char → Option (List Char))} :
    ∀ {t cap}, firstCapture ps t = some cap →
      ∃ p ∈ ps, ∃ u, p u = some cap := by
  induction ps with
  | nil => intro t cap h; cases h
  | cons p ps' ih =>
    intro t cap h
    unfold firstCapture at h
    split at h
    next cap' hs => cases h; exact ⟨p, List.mem_cons_self p ps', searchP_some hs⟩
    next =>
      obtain ⟨q, hq, u, hu⟩ := ih h
      exact ⟨q, List.mem_cons_of_mem p hq, u, hu⟩

theorem amountPatterns_capOk : ∀ p ∈ amountPatterns, ∀ {u cap},
    p u = some cap → CapOk cap := by
  intro p hp
  unfold amountPatterns at hp
  rcases List.mem_cons.mp hp with rfl | hp
  · exact fun h => p1At_capOk h
  rcases List.mem_cons.mp hp with rfl | hp
  · exact fun h => p2At_capOk h
  rcases List.mem_cons.mp hp with rfl | hp
  · exact fun h => kwAt_capOk h
  rcases List.mem_cons.mp hp with rfl | hp
  · exact fun h => kwAt_capOk h
  rcases List.mem_cons.mp hp with rfl | hp
  · exact fun h => kwAt_capOk h
  · simp at hp

/-- The heart of the totality claim: the `float(...)` call on the
comma-stripped capture never raises, for any input string. -/
theorem extract_amount?_isSome (s : List Char) :
    (extract_amount? s).isSome = true := by
  unfold extract_amount?
  cases hf : firstCapture amountPatterns (s.map pyLower) with
  | none => rfl
  | some cap =>
    obtain ⟨p, hp, u, hu⟩ := firstCapture_some hf
    exact amountPatterns_capOk p hp hu

/-! ## Pattern priority (currency markers before keywords) -/

theorem firstCapture_cons (p : List Char → Option (List Char))
    (ps : List (List Char → Option (List Char))) (t : List Char) :
    firstCapture (p :: ps) t =
      match searchP p t with
      | some cap => some cap
      | none => firstCapture ps t := rfl

theorem searchP_head {p : List Char → Option (List Char)} {t cap}
    (h : p t = some cap) : searchP p t = some cap := by
  cases t with
  | nil => exact h
  | cons c cs =>
    unfold searchP
    rw [h]

theorem firstCapture_head {p ps t cap} (h : searchP p t = some cap) :
    firstCapture (p :: ps) t = some cap := by
  rw [firstCapture_cons, h]

/-- If one of the two currency-marker patterns matches (pattern 1 taking
priority over pattern 2), its capture decides the result of
`extract_amount_from_sms`, whatever the keyword patterns would say. -/
theorem extract_amount_currency_first {s cap : List Char}
    (hcur : firstCapture [p1At, p2At] (s.map pyLower) = some cap) :
    extract_amount? s = pyFloat? (cap.filter (fun c => !(c == ','))) := by
  have hfc : firstCapture amountPatterns (s.map pyLower) = some cap := by
    show firstCapture (p1At :: p2At :: [kwAt ("amount".data),
      kwAt ("debited".data), kwAt ("spent".data)]) (s.map pyLower) = some cap
    cases hs1 : searchP p1At (s.map pyLower) with
    | some c1 =>
      have h1 : firstCapture [p1At, p2At] (s.map pyLower) = some c1 := by
        rw [firstCapture_cons, hs1]
      rw [h1] at hcur
      cases hcur
      rw [firstCapture_cons, hs1]
    | none =>
      cases hs2 : searchP p2At (s.map pyLower) with
      | some c2 =>
        have h2 : firstCapture [p1At, p2At] (s.map pyLower) = some c2 := by
          rw [firstCapture_cons, hs1, firstCapture_cons, hs2]
        rw [h2] at hcur
        cases hcur
        rw [firstCapture_cons, hs1, firstCapture_cons, hs2]
      | none =>
        have h0 : firstCapture [p1At, p2At] (s.map pyLower) = none := by
          rw [firstCapture_cons, hs1, firstCapture_cons, hs2]
          rfl
        rw [h0] at hcur
        cases hcur
  unfold extract_amount?
  rw [hfc]

/-! ## Merchant extractor lemmas -/

theorem merchantLoop_eq_find? : ∀ (ms : List (List Char)) (low : List Char),
    merchantLoop ms low = ms.find? (fun m => occursIn m low) := by
  intro ms low
  induction ms with
  | nil => rfl
  | cons m ms' ih =>
    cases hm : occursIn m low with
    | true => simp [merchantLoop, List.find?_cons, hm]
    | false => simp [merchantLoop, List.find?_cons, hm, ih]

/-! ## More digit facts (for the two-decimal-digit analysis) -/

theorem digit_not_space {c : Char} (h : isDigitC c = true) :
    isSpaceC c = false :=
  (by decide : ∀ d ∈ "0123456789".data, isSpaceC d = false) c (isDigitC_mem h)

theorem digit_not_upper {c : Char} (h : isDigitC c = true) :
    isUpperC c = false :=
  (by decide : ∀ d ∈ "0123456789".data, isUpperC d = false) c (isDigitC_mem h)

theorem isEmpty_false_of_ne_nil {l : List Char} (h : l ≠ []) :
    l.isEmpty = false := by
  cases l with
  | nil => exact absurd rfl h
  | cons c cs => rfl

theorem dropWhile_space_of_digits {ds : List Char} (t : List Char)
    (hne : ds ≠ []) (hds : ∀ c ∈ ds, isDigitC c = true) :
    (ds ++ t).dropWhile isSpaceC = ds ++ t := by
  cases ds with
  | nil => exact absurd rfl hne
  | cons c cs =>
    rw [List.cons_append]
    exact List.dropWhile_cons_of_neg
      (by simp [digit_not_space (hds c (List.mem_cons_self c cs))])

theorem matchNumberAt_dec2 (ds : List Char) (a b : Char) (hne : ds ≠ [])
    (hds : ∀ c ∈ ds, isDigitC c = true) (ha : isDigitC a = true)
    (hb : isDigitC b = true) :
    matchNumberAt (ds ++ ['.', a, b]) = some (ds ++ ['.', a, b], []) := by
  unfold matchNumberAt
  rw [takeWhile_append_stop _ '.' _ (by decide) _ hds,
    dropWhile_append_stop _ '.' _ (by decide) _ hds,
    if_neg (by simp [isEmpty_false_of_ne_nil hne])]
  have hmcg : matchCommaGroups ('.' :: [a, b]) = ([], '.' :: [a, b]) := rfl
  rw [hmcg]
  have hmd : matchDecimal ('.' :: [a, b]) =
      if '.' == '.' && isDigitC a && isDigitC b then (['.', a, b], [])
      else ([], '.' :: [a, b]) := rfl
  rw [hmd, if_pos (by simp [ha, hb])]
  simp

theorem matchNumberAt_dec1 (ds : List Char) (a : Char) (hne : ds ≠ [])
    (hds : ∀ c ∈ ds, isDigitC c = true) :
    matchNumberAt (ds ++ ['.', a]) = some (ds, '.' :: [a]) := by
  unfold matchNumberAt
  rw [takeWhile_append_stop _ '.' _ (by decide) _ hds,
    dropWhile_append_stop _ '.' _ (by decide) _ hds,
    if_neg (by simp [isEmpty_false_of_ne_nil hne])]
  have hmcg : matchCommaGroups ('.' :: [a]) = ([], '.' :: [a]) := rfl
  rw [hmcg]
  have hmd : matchDecimal ('.' :: [a]) = ([], '.' :: [a]) := rfl
  rw [hmd]
  simp

theorem p1At_rs (X : List Char) (cap r : List Char)
    (hdw : X.dropWhile isSpaceC = X)
    (hX : matchNumberAt X = some (cap, r)) :
    p1At ("rs ".data ++ X) = some cap := by
  show (match matchNumberAt ((' ' :: X).dropWhile isSpaceC) with
    | some pr => some pr.1
    | none => none) = some cap
  rw [List.dropWhile_cons_of_pos (by decide), hdw, hX]

theorem pyFloat_dec2_val (ds : List Char) (a b : Char) (hne : ds ≠ [])
    (hds : ∀ c ∈ ds, isDigitC c = true) (ha : isDigitC a = true)
    (hb : isDigitC b = true) :
    pyFloat? (ds ++ ['.', a, b]) =
      some (mkRat (Int.ofNat (digitsToNat ds * 100 + digitsToNat [a, b])) 100) := by
  unfold pyFloat?
  rw [takeWhile_append_stop _ '.' _ (by decide) _ hds,
    dropWhile_append_stop _ '.' _ (by decide) _ hds,
    if_neg (by simp [isEmpty_false_of_ne_nil hne])]
  show (if ('.' == '.' && !([a, b].isEmpty) && [a, b].all isDigitC)
    then some (mkRat (Int.ofNat (digitsToNat ds * 10 ^ ([a, b].length) +
      digitsToNat [a, b])) (10 ^ ([a, b].length)))
    else none) = _
  rw [if_pos (by simp [ha, hb])]
  norm_num

theorem pyFloat_digits_val (ds : List Char) (hne : ds ≠ [])
    (hds : ∀ c ∈ ds, isDigitC c = true) :
    pyFloat? ds = some (mkRat (digitsToNat ds) 1) := by
  unfold pyFloat?
  rw [takeWhile_eq_self _ _ hds, dropWhile_eq_nil _ _ hds,
    if_neg (by simp [isEmpty_false_of_ne_nil hne])]

theorem filter_comma_digits {ds : List Char}
    (hds : ∀ c ∈ ds, isDigitC c = true) :
    ds.filter (fun c => !(c == ',')) = ds :=
  filter_eq_self_of _ _ (fun c hc => by simp [isDigitC_ne_comma (hds c hc)])

theorem map_pyLower_rs_num (X : List Char)
    (hX : ∀ c ∈ X, isDigitC c = true ∨ c = '.') :
    ("rs ".data ++ X).map pyLower = "rs ".data ++ X := by
  refine map_eq_self_of _ _ (fun c hc => ?_)
  rcases List.mem_append.mp hc with hc | hc
  · rcases List.mem_cons.mp hc with rfl | hc
    · decide
    · rcases List.mem_cons.mp hc with rfl | hc
      · decide
      · rcases List.mem_cons.mp hc with rfl | hc
        · decide
        · simp at hc
  · rcases hX c hc with hd | rfl
    · exact pyLower_eq_self (digit_not_upper hd)
    · decide

/-! ## Claim theorems -/

/-- C1: `extract_amount_from_sms` evaluates its patterns as a fixed
priority list with early return, currency-marker patterns (pattern 1,
then pattern 2) before the keyword patterns; whenever a currency-marker
pattern matches — in particular when a keyword pattern also matches —
the currency-marker pattern's capture decides the returned value. -/
theorem claim_C1 (s cap : List Char)
    (hcur : firstCapture [p1At, p2At] (s.map pyLower) = some cap)
    (_hkw : (searchP (kwAt ("amount".data)) (s.map pyLower)).isSome = true ∨
      (searchP (kwAt ("debited".data)) (s.map pyLower)).isSome = true ∨
      (searchP (kwAt ("spent".data)) (s.map pyLower)).isSome = true) :
    extract_amount? s = pyFloat? (cap.filter (fun c => !(c == ','))) :=
  extract_amount_currency_first hcur

theorem claim_C1_witness :
    extract_amount? ("amount 50 rs 100".data) = some (mkRat 100 1) :=
  Eq.trans
    (claim_C1 ("amount 50 rs 100".data) ("100".data) (by decide)
      (Or.inl (by decide)))
    (by decide)

/-- C2 (as written, refuted): the patterns do NOT capture a one-digit
decimal fraction — the decimal part of the number form requires exactly
two digits, so `extract_amount_from_sms "rs 10.5"` returns the integer
part 10.0, not 10.5. -/
theorem claim_C2_counterexample :
    extract_amount_from_sms ("rs 10.5".data) = mkRat 10 1 ∧
    ¬ extract_amount_from_sms ("rs 10.5".data) = mkRat 21 2 := by
  decide

/-- C2 (amended): each pattern's optional decimal part matches exactly
two digits. For a currency marker followed by `digits.dd` the full
fractional literal is captured and parsed; for `digits.d` (one decimal
digit) the fraction is not captured and only the integer part is
returned. -/
theorem claim_C2 (ds : List Char) (a b : Char) (hne : ds ≠ [])
    (hds : ∀ c ∈ ds, isDigitC c = true) (ha : isDigitC a = true)
    (hb : isDigitC b = true) :
    extract_amount? ("rs ".data ++ (ds ++ ['.', a, b])) =
      some (mkRat (Int.ofNat (digitsToNat ds * 100 + digitsToNat [a, b])) 100) ∧
    extract_amount? ("rs ".data ++ (ds ++ ['.', a])) =
      some (mkRat (digitsToNat ds) 1) := by
  constructor
  · have hX : ∀ c ∈ ds ++ ['.', a, b], isDigitC c = true ∨ c = '.' := by
      intro c hc
      rcases List.mem_append.mp hc with hc | hc
      · exact Or.inl (hds c hc)
      · rcases List.mem_cons.mp hc with rfl | hc
        · exact Or.inr rfl
        · rcases List.mem_cons.mp hc with rfl | hc
          · exact Or.inl ha
          · rcases List.mem_cons.mp hc with rfl | hc
            · exact Or.inl hb
            · simp at hc
    have hlow := map_pyLower_rs_num (ds ++ ['.', a, b]) hX
    unfold extract_amount? amountPatterns
    rw [hlow]
    rw [firstCapture_head (searchP_head (p1At_rs (ds ++ ['.', a, b]) _ _
      (dropWhile_space_of_digits _ hne hds)
      (matchNumberAt_dec2 ds a b hne hds ha hb)))]
    show pyFloat? ((ds ++ ['.', a, b]).filter (fun c => !(c == ','))) = _
    have hfil : (ds ++ ['.', a, b]).filter (fun c => !(c == ',')) =
        ds ++ ['.', a, b] := by
      refine filter_eq_self_of _ _ (fun c hc => ?_)
      rcases hX c hc with hd | rfl
      · simp [isDigitC_ne_comma hd]
      · decide
    rw [hfil]
    exact pyFloat_dec2_val ds a b hne hds ha hb
  · have hX : ∀ c ∈ ds ++ ['.', a], isDigitC c = true ∨ c = '.' := by
      intro c hc
      rcases List.mem_append.mp hc with hc | hc
      · exact Or.inl (hds c hc)
      · rcases List.mem_cons.mp hc with rfl | hc
        · exact Or.inr rfl
        · rcases List.mem_cons.mp hc with rfl | hc
          · exact Or.inl ha
          · simp at hc
    have hlow := map_pyLower_rs_num (ds ++ ['.', a]) hX
    unfold extract_amount? amountPatterns
    rw [hlow]
    rw [firstCapture_head (searchP_head (p1At_rs (ds ++ ['.', a]) _ _
      (dropWhile_space_of_digits _ hne hds)
      (matchNumberAt_dec1 ds a hne hds)))]
    show pyFloat? (ds.filter (fun c => !(c == ','))) = _
    rw [filter_comma_digits hds]
    exact pyFloat_digits_val ds hne hds

theorem claim_C2_witness :
    extract_amount? ("rs 10.50".data) = some (mkRat 21 2) ∧
    extract_amount? ("rs 10.5".data) = some (mkRat 10 1) := by
  have h := claim_C2 ("10".data) '5' '0' (by decide) (by decide) (by decide)
    (by decide)
  exact ⟨Eq.trans h.1 (by decide), Eq.trans h.2 (by decide)⟩

/-- C3 (as written, refuted): the normalizer keeps underscores (Python
`\w` includes `_`), so on input `"_"` the output contains a character
that is neither a lowercase alphanumeric nor a space. -/
theorem claim_C3_counterexample :
    preprocess_text ("_".data) = "_".data ∧
    normalizedShape (fun c => isLowerC c || isDigitC c)
      (preprocess_text ("_".data)) = false := by
  decide

/-- C3 (amended): for every input string, the normalizer's output
contains only lowercase alphanumerics or underscores and single spaces,
with no leading or trailing space. -/
theorem claim_C3 (s : List Char) :
    normalizedShape isWordLowerC (preprocess_text s) = true :=
  preprocess_shape s

/-- C4: with the same already-initialized classifier, two successful
invocations of the endpoint on the same text yield identical
ExtractionResult fields (category, confidence, amount, merchant,
original text), independent of the invocation time. -/
theorem claim_C4 {V : Type} (m : PModel V) (vec : List Char → V)
    (txt now₁ now₂ : List Char) (r₁ r₂ : SmsResult)
    (h₁ : categorize_sms (some m) (some vec) (some txt) now₁ = CatResponse.ok r₁)
    (h₂ : categorize_sms (some m) (some vec) (some txt) now₂ = CatResponse.ok r₂) :
    r₁.category = r₂.category ∧ r₁.confidence = r₂.confidence ∧
    r₁.amount = r₂.amount ∧ r₁.merchant = r₂.merchant ∧
    r₁.original_text = r₂.original_text := by
  cases hmax : pyMax? (m.predict_proba (vec (preprocess_text txt))) with
  | none =>
    simp only [categorize_sms, hmax] at h₁
    cases h₁
  | some conf =>
    cases hamt : extract_amount? txt with
    | none =>
      simp only [categorize_sms, hmax, hamt] at h₁
      cases h₁
    | some amt =>
      simp only [categorize_sms, hmax, hamt] at h₁ h₂
      cases h₁
      cases h₂
      exact ⟨rfl, rfl, rfl, rfl, rfl⟩

/-- The stub classifier used to instantiate the endpoint theorems. -/
def witModel : PModel Unit :=
  { predict := fun _ => "Essentials".data
    predict_proba := fun _ => [mkRat 7 10, mkRat 2 10, mkRat 1 10] }

/-- The result of the witness run at time `"t1"`. -/
def witResultA : SmsResult :=
  { success := true
    category := "Essentials".data
    confidence := mkRat 7 10
    amount := mkRat 200 1
    merchant := "Swiggy".data
    original_text := "Rs 200 spent on Swiggy order".data
    processed_at := "t1".data }

/-- The result of the witness run at time `"t2"`. -/
def witResultB : SmsResult :=
  { witResultA with processed_at := "t2".data }

theorem claim_C4_witness :
    witResultA.category = witResultB.category ∧
    witResultA.confidence = witResultB.confidence ∧
    witResultA.amount = witResultB.amount ∧
    witResultA.merchant = witResultB.merchant ∧
    witResultA.original_text = witResultB.original_text :=
  claim_C4 witModel (fun _ => ()) ("Rs 200 spent on Swiggy order".data)
    ("t1".data) ("t2".data) witResultA witResultB (by decide) (by decide)

/-- C5: merchant extraction lower-cases the text and returns the
title-cased first vocabulary entry contained in it (in enumeration
order), with the sentinel otherwise — equivalently the spec-side
`extractMerchantSpec` — and it depends on the input only through its
lower-casing, hence is case-insensitive. -/
theorem claim_C5 (s : List Char) :
    extract_merchant_from_sms s = extractMerchantSpec s ∧
    ∀ t : List Char, s.map pyLower = t.map pyLower →
      extract_merchant_from_sms s = extract_merchant_from_sms t := by
  constructor
  · unfold extract_merchant_from_sms extractMerchantSpec
    rw [merchantLoop_eq_find?]
  · intro t h
    unfold extract_merchant_from_sms
    rw [h]

theorem claim_C5_witness :
    extract_merchant_from_sms ("SWIGGY order".data) =
      extract_merchant_from_sms ("swiggy order".data) ∧
    extract_merchant_from_sms ("SWIGGY order".data) = "Swiggy".data :=
  ⟨(claim_C5 ("SWIGGY order".data)).2 ("swiggy order".data) (by decide),
   by decide⟩

/-- C6: the extractors are total — in particular the `float` parse of
the captured group (after stripping commas) always succeeds, and when no
pattern matches the sentinel 0.0 is returned rather than an error. -/
theorem claim_C6 (s : List Char) :
    (extract_amount? s).isSome = true ∧
    (firstCapture amountPatterns (s.map pyLower) = none →
      extract_amount? s = some 0) := by
  refine ⟨extract_amount?_isSome s, fun h => ?_⟩
  unfold extract_amount?
  rw [h]

theorem claim_C6_witness :
    (extract_amount? ("hello world".data)).isSome = true ∧
    extract_amount? ("hello world".data) = some 0 :=
  ⟨(claim_C6 ("hello world".data)).1,
   (claim_C6 ("hello world".data)).2 (by decide)⟩

/-- C7: when the model or the vectorizer failed to load, every request
gets the distinct model-unavailable response, and an `ok` result (a
default category) is never substituted. -/
theorem claim_C7 {V : Type} (model? : Option (PModel V))
    (vect? : Option (List Char → V)) (body? : Option (List Char))
    (now : List Char) (h : model? = none ∨ vect? = none) :
    categorize_sms model? vect? body? now = CatResponse.modelNotLoaded ∧
    ∀ r : SmsResult, categorize_sms model? vect? body? now ≠ CatResponse.ok r := by
  have hm : categorize_sms model? vect? body? now =
      CatResponse.modelNotLoaded := by
    rcases h with rfl | rfl
    · cases vect? <;> rfl
    · cases model? <;> rfl
  refine ⟨hm, fun r hr => ?_⟩
  rw [hm] at hr
  cases hr

theorem claim_C7_witness :
    categorize_sms (V := Unit) none none (some ("Rs 5".data)) ("t".data) =
      CatResponse.modelNotLoaded ∧
    categorize_sms (V := Unit) none none (some ("Rs 5".data)) ("t".data) ≠
      CatResponse.ok witResultA :=
  ⟨(claim_C7 none none (some ("Rs 5".data)) ("t".data) (Or.inl rfl)).1,
   (claim_C7 none none (some ("Rs 5".data)) ("t".data) (Or.inl rfl)).2
     witResultA⟩

/-- C8: the normalizer is idempotent. -/
theorem claim_C8 (s : List Char) :
    preprocess_text (preprocess_text s) = preprocess_text s :=
  preprocess_idem_aux s

/-- C9: the classifier-availability check precedes input validation —
with the model or vectorizer unavailable, a request with no `sms_text`
gets the model-unavailable response, never the missing-input response. -/
theorem claim_C9 {V : Type} (model? : Option (PModel V))
    (vect? : Option (List Char → V)) (now : List Char)
    (h : model? = none ∨ vect? = none) :
    categorize_sms model? vect? none now = CatResponse.modelNotLoaded ∧
    categorize_sms model? vect? none now ≠ CatResponse.missingSmsText := by
  have hm : categorize_sms model? vect? none now =
      CatResponse.modelNotLoaded := by
    rcases h with rfl | rfl
    · cases vect? <;> rfl
    · cases model? <;> rfl
  refine ⟨hm, ?_⟩
  rw [hm]
  intro hx
  cases hx

theorem claim_C9_witness :
    categorize_sms (V := Unit) none (some (fun _ => ())) none ("t".data) =
      CatResponse.modelNotLoaded ∧
    categorize_sms (V := Unit) none (some (fun _ => ())) none ("t".data) ≠
      CatResponse.missingSmsText :=
  claim_C9 none (some (fun _ => ())) ("t".data) (Or.inl rfl)

/-- C10: the amount patterns are searched unanchored with no word
boundary, so in `"offers 100 today"` the trailing `rs` of `"offers"`
anchors pattern 1 and 100.0 is returned instead of the sentinel 0.0. -/
theorem claim_C10 :
    extract_amount_from_sms ("offers 100 today".data) = mkRat 100 1 ∧
    ¬ extract_amount_from_sms ("offers 100 today".data) = 0 := by
  decide

end SmsApi
